import Mathlib

set_option maxHeartbeats 1000000
set_option maxRecDepth 4000

/-!
Shallow embedding of `borganiser.py`, a BibTeX parser / sorter / serializer.

Python strings are modelled as `List Char`; the cursor `i` into the source
buffer is an explicit `Nat`.  A Python indexing expression `source[i]` is
faithfully rendered by pattern matching on `source.drop i`: the head of that
suffix is `source[i]`, and the empty suffix is exactly the situation in which
Python raises `IndexError` (string index out of range).  Code that can raise
returns `Except PErr`.  `str.isspace` is modelled by `Char.isWhitespace`,
`str.strip` by `pyStrip`, `str.lower` by `List.map Char.toLower`, and the
stable `list.sort(key=...)` by a stable insertion sort `pysort`.
-/

deriving instance DecidableEq for Except

/-- An error escaping the parser: `indexError` models Python's `IndexError`
raised by an out-of-range string index, `syntaxError c` models the
`SyntaxError` the parser raises, carrying the offending character. -/
inductive PErr : Type where
  | indexError : PErr
  | syntaxError : Char → PErr
deriving DecidableEq

/-- The BibTeX block start character. -/
def BLOCK_START : Char := '{'

/-- The BibTeX block end character. -/
def BLOCK_END : Char := '}'

/-- The BibTeX list separator character. -/
def LIST_SEP : Char := ','

/-- Loop of `skip_whitespace`, walking the suffix `source.drop i` while
tracking the absolute index `i`. -/
def sw_loop : List Char → Nat → Nat
  | [], i => i
  | c :: r, i => if c.isWhitespace then sw_loop r (i + 1) else i

/-- `skip_whitespace(source, start)`: index of the next non-whitespace
character at or after `start` (or `len(source)`). -/
def skip_whitespace (source : List Char) (start : Nat) : Nat :=
  sw_loop (source.drop start) start

/-- The `while source[i] != target` read loops of the parser (used to read an
entry type up to `{`, a name up to `,` and a field key up to `=`).  Returns
the characters before the first occurrence of `target` and the index of that
occurrence; running off the end of the buffer is Python's `IndexError`. -/
def scan_to (target : Char) : List Char → Nat → Except PErr (List Char × Nat)
  | [], _ => .error .indexError
  | c :: r, i =>
    if c = target then .ok ([], i)
    else (scan_to target r (i + 1)).map (fun p => (c :: p.1, p.2))

/-- The `while level > 0` loop of `read_next_block`.  `rest` is the suffix of
the source just after position `i - 1`; the loop starts one past the opening
delimiter at `level = 1`.  A delimiter character is kept in the buffer when
`include_delimiters` is set or the level after the update is still positive;
every other character is kept. -/
def rb_loop (include_delimiters : Bool) (start_delimiter end_delimiter : Char) :
    List Char → Nat → Nat → Except PErr (List Char × Nat)
  | [], i, level =>
    if level = 0 then .ok ([], i) else .error .indexError
  | c :: r, i, level =>
    if level = 0 then .ok ([], i)
    else if c = start_delimiter ∨ c = end_delimiter then
      let level' := if c = start_delimiter then level + 1 else level - 1
      (rb_loop include_delimiters start_delimiter end_delimiter r (i + 1) level').map
        (fun p => (if include_delimiters ∨ 0 < level' then c :: p.1 else p.1, p.2))
    else
      (rb_loop include_delimiters start_delimiter end_delimiter r (i + 1) level).map
        (fun p => (c :: p.1, p.2))

/-- `read_next_block(source, start, include_delimiters, ...)`: skip
whitespace, require the block-open delimiter (else `SyntaxError` with the
found character; at end of input, `IndexError`), then run the level loop. -/
def read_next_block (source : List Char) (start : Nat) (include_delimiters : Bool)
    (start_delimiter end_delimiter : Char) : Except PErr (List Char × Nat) :=
  let i := skip_whitespace source start
  match source.drop i with
  | [] => .error .indexError
  | c :: r =>
    if c ≠ start_delimiter then .error (.syntaxError c)
    else rb_loop include_delimiters start_delimiter end_delimiter r (i + 1) 1

/-- The quoted-literal loop of `read_next_value`: read up to the next `"`
(excluded), returning the index one past the closing quote. -/
def quote_loop : List Char → Nat → Except PErr (List Char × Nat)
  | [], _ => .error .indexError
  | c :: r, i =>
    if c = '"' then .ok ([], i + 1)
    else (quote_loop r (i + 1)).map (fun p => (c :: p.1, p.2))

/-- The bare-token loop of `read_next_value`: read until a list separator,
the block end delimiter or whitespace.  The Python loop `while source[i] not
in [LIST_SEP, end_delimiter] and not source[i].isspace()` has no bounds
check, so reaching the end of the buffer is an `IndexError`. -/
def bare_loop (end_delimiter : Char) : List Char → Nat → Except PErr (List Char × Nat)
  | [], _ => .error .indexError
  | c :: r, i =>
    if c = LIST_SEP ∨ c = end_delimiter ∨ c.isWhitespace then .ok ([], i)
    else (bare_loop end_delimiter r (i + 1)).map (fun p => (c :: p.1, p.2))

/-- `read_next_value(source, start, ...)`: skip whitespace and dispatch on
the next character: block, quoted literal, or bare token.  The dispatch
itself indexes `source[i]`, so end of input is an `IndexError`. -/
def read_next_value (source : List Char) (start : Nat) (include_delimiters : Bool)
    (start_delimiter end_delimiter : Char) : Except PErr (List Char × Nat) :=
  let i := skip_whitespace source start
  match source.drop i with
  | [] => .error .indexError
  | c :: r =>
    if c = start_delimiter then
      read_next_block source start include_delimiters start_delimiter end_delimiter
    else if c = '"' then
      quote_loop r (i + 1)
    else
      bare_loop end_delimiter (c :: r) i

/-- Python `str.strip()`: remove leading and trailing whitespace. -/
def pyStrip (l : List Char) : List Char :=
  ((l.dropWhile Char.isWhitespace).reverse.dropWhile Char.isWhitespace).reverse

/-- Python `str.lower()` (restricted, as `Char.toLower`, to basic latin). -/
def lowerStr (l : List Char) : List Char := l.map Char.toLower

/-- Python `sep.join(parts)`. -/
def joinSep (sep : List Char) : List (List Char) → List Char
  | [] => []
  | [x] => x
  | x :: y :: r => x ++ sep ++ joinSep sep (y :: r)

/-- Stable insertion of `x` into `l`: `x` is placed before the first element
`y` with `le x y`. -/
def insort {α : Type} (le : α → α → Bool) (x : α) : List α → List α
  | [] => [x]
  | y :: ys => if le x y then x :: y :: ys else y :: insort le x ys

/-- Python's stable `list.sort` modelled as a stable insertion sort. -/
def pysort {α : Type} (le : α → α → Bool) (l : List α) : List α :=
  l.foldr (insort le) []

/-- Lexicographic (code point) `≤` on strings, as Python compares the sort
keys. -/
def lexLe : List Char → List Char → Bool
  | [], _ => true
  | _ :: _, [] => false
  | a :: as, b :: bs => if a < b then true else if b < a then false else lexLe as bs

/-- A BibTeX field: `BibtexField.__init__` stores the key and the value. -/
structure BibtexField where
  key : List Char
  value : List Char
deriving DecidableEq

/-- `BibtexField.to_bibtex`: render as `key={value}`. -/
def BibtexField.to_bibtex (f : BibtexField) : List Char :=
  f.key ++ '=' :: BLOCK_START :: (f.value ++ [BLOCK_END])

/-- A BibTeX entry: type tag, citation name and ordered field list. -/
structure BibtexEntry where
  type : List Char
  name : List Char
  fields : List BibtexField
deriving DecidableEq

/-- The field-reading `while i < len(source)` loop of
`BibtexEntry.__init__`: read a key up to `=`, skip the `=` and whitespace,
read the value with `read_next_value`, skip one delimiter character, strip
and append the field, skip whitespace, loop.  The loop advances `i` by at
least one per iteration, so the fuel `len(source) + 1` supplied by the
wrapper never runs out; fuel exhaustion is mapped to the same `IndexError`
an overrun would produce. -/
def fields_loop (source : List Char) : Nat → Nat → List BibtexField →
    Except PErr (List BibtexField)
  | 0, _, _ => .error .indexError
  | fuel + 1, i, acc =>
    match source.drop i with
    | [] => .ok acc
    | _ :: _ =>
      (scan_to '=' (source.drop i) i).bind fun kp =>
        (read_next_value source (skip_whitespace source (kp.2 + 1)) false
            BLOCK_START BLOCK_END).bind fun vp =>
          fields_loop source fuel (skip_whitespace source (vp.2 + 1))
            (acc ++ [⟨pyStrip kp.1, pyStrip vp.1⟩])

/-- `BibtexEntry.__init__(type, source)`: read the name up to the first
comma (no bounds check: a missing comma is an `IndexError`), strip it, skip
the comma and whitespace, then run the field loop. -/
def BibtexEntry.init (type : List Char) (source : List Char) : Except PErr BibtexEntry :=
  (scan_to LIST_SEP source 0).bind fun np =>
    (fields_loop source (source.length + 1) (skip_whitespace source (np.2 + 1)) []).bind
      fun fs => .ok ⟨type, pyStrip np.1, fs⟩

/-- `BibtexEntry.sort_fields`: stable sort of the fields by key. -/
def BibtexEntry.sort_fields (e : BibtexEntry) : BibtexEntry :=
  ⟨e.type, e.name, pysort (fun a b => lexLe a.key b.key) e.fields⟩

/-- `BibtexEntry.to_bibtex`: `@{type.lower()}{{{name},\n  ` then the fields
joined by `,\n  ` then `\n}`. -/
def BibtexEntry.to_bibtex (e : BibtexEntry) : List Char :=
  ('@' :: lowerStr e.type) ++ (BLOCK_START :: e.name)
    ++ (LIST_SEP :: '\n' :: ' ' :: ' ' :: [])
    ++ joinSep (LIST_SEP :: '\n' :: ' ' :: ' ' :: []) (e.fields.map BibtexField.to_bibtex)
    ++ ('\n' :: [BLOCK_END])

/-- A BibTeX document: ordered list of entries. -/
structure BibtexDocument where
  entries : List BibtexEntry
deriving DecidableEq

/-- The entry-reading `while i < len(source)` loop of
`BibtexDocument.__init__`: expect `@` (else `SyntaxError` carrying the found
character), read the type up to `{`, read the entry body with
`read_next_value`, build the entry, skip whitespace, loop.  Fuel as in
`fields_loop`. -/
def doc_loop (source : List Char) : Nat → Nat → List BibtexEntry →
    Except PErr (List BibtexEntry)
  | 0, _, _ => .error .indexError
  | fuel + 1, i, acc =>
    match source.drop i with
    | [] => .ok acc
    | c :: _ =>
      if c = '@' then
        (scan_to BLOCK_START (source.drop (i + 1)) (i + 1)).bind fun tp =>
          (read_next_value source tp.2 false BLOCK_START BLOCK_END).bind fun bp =>
            (BibtexEntry.init (pyStrip tp.1) bp.1).bind fun entry =>
              doc_loop source fuel (skip_whitespace source bp.2) (acc ++ [entry])
      else .error (.syntaxError c)

/-- `BibtexDocument.__init__(source)`: skip leading whitespace and run the
entry loop. -/
def BibtexDocument.init (source : List Char) : Except PErr BibtexDocument :=
  (doc_loop source (source.length + 1) (skip_whitespace source 0) []).map
    (fun es => ⟨es⟩)

/-- `BibtexDocument.sort_entries`: stable sort of the entries by name. -/
def BibtexDocument.sort_entries (d : BibtexDocument) : BibtexDocument :=
  ⟨pysort (fun a b => lexLe a.name b.name) d.entries⟩

/-- `BibtexDocument.sort_fields`: sort the fields of every entry. -/
def BibtexDocument.sort_fields (d : BibtexDocument) : BibtexDocument :=
  ⟨d.entries.map BibtexEntry.sort_fields⟩

/-- `BibtexDocument.to_bibtex`: entries joined by a blank line. -/
def BibtexDocument.to_bibtex (d : BibtexDocument) : List Char :=
  joinSep ('\n' :: '\n' :: []) (d.entries.map BibtexEntry.to_bibtex)

/-- One serialize-then-parse-then-serialize round trip, the subject of the
normalization-fixpoint property. -/
def roundTrip (d : BibtexDocument) : Except PErr (List Char) :=
  (BibtexDocument.init d.to_bibtex).map BibtexDocument.to_bibtex

/-- Brace-depth scan: `braceScan k l` walks `l` starting from depth `k` and
returns the final depth, or `none` when a `}` occurs at depth 0 (which is
where the reader of an enclosing block would stop). -/
def braceScan : Nat → List Char → Option Nat
  | k, [] => some k
  | k, c :: r =>
    if c = BLOCK_START then braceScan (k + 1) r
    else if c = BLOCK_END then
      if k = 0 then none else braceScan (k - 1) r
    else braceScan k r

/-- A brace-balanced string: scanning from depth 0 never closes an unopened
brace and ends back at depth 0. -/
abbrev balancedStr (l : List Char) : Prop := braceScan 0 l = some 0

/-- The list is empty or begins with a non-whitespace character. -/
def headNotWs : List Char → Prop
  | [] => True
  | c :: _ => c.isWhitespace = false

/-- A field whose serialization reparses to itself: key and value are
already stripped, the key contains no `=` and no braces, and the value is
brace-balanced. -/
abbrev wf_field (f : BibtexField) : Prop :=
  pyStrip f.key = f.key ∧
    (∀ c ∈ f.key, c ≠ '=' ∧ c ≠ BLOCK_START ∧ c ≠ BLOCK_END) ∧
    pyStrip f.value = f.value ∧ braceScan 0 f.value = some 0

/-- An entry whose serialization reparses: type stripped and free of `{`,
name stripped and free of `,` and of braces, and every field `wf_field`. -/
abbrev wf_entry (e : BibtexEntry) : Prop :=
  pyStrip e.type = e.type ∧ (∀ c ∈ e.type, c ≠ BLOCK_START) ∧
    pyStrip e.name = e.name ∧
    (∀ c ∈ e.name, c ≠ LIST_SEP ∧ c ≠ BLOCK_START ∧ c ≠ BLOCK_END) ∧
    ∀ f ∈ e.fields, wf_field f

/-- A document all of whose entries are `wf_entry`. -/
abbrev wf_doc (d : BibtexDocument) : Prop := ∀ e ∈ d.entries, wf_entry e

/-- The text between the outer braces of a serialized entry. -/
def entryInterior (e : BibtexEntry) : List Char :=
  e.name ++ LIST_SEP :: '\n' :: ' ' :: ' ' ::
    (joinSep (LIST_SEP :: '\n' :: ' ' :: ' ' :: [])
        (e.fields.map BibtexField.to_bibtex) ++ ['\n'])

/-- The serialized field region of an entry followed by its final newline,
split by cases on the field list (as the reparse consumes it). -/
def fieldsText : List BibtexField → List Char
  | [] => []
  | [f] => f.to_bibtex ++ ['\n']
  | f :: f' :: fs =>
    f.to_bibtex ++ LIST_SEP :: '\n' :: ' ' :: ' ' :: fieldsText (f' :: fs)

/-- The serialized document, split by cases on the entry list. -/
def entriesText : List BibtexEntry → List Char
  | [] => []
  | [e] => e.to_bibtex
  | e :: e' :: es => e.to_bibtex ++ '\n' :: '\n' :: entriesText (e' :: es)

/-- The entry a reparse of a serialized entry produces: the type tag comes
back lowercased, everything else unchanged. -/
def lowerEntry (e : BibtexEntry) : BibtexEntry :=
  ⟨lowerStr e.type, e.name, e.fields⟩

/-- The parsed form of `@x{n, k=a{b}}`: the bare-token value `a{b` keeps its
unbalanced brace, which breaks the reparse of the serialized document. -/
def c1CexDoc : BibtexDocument :=
  ⟨[⟨"x".data, "n".data, [⟨"k".data, "a\x7bb".data⟩]⟩]⟩

/-! Basic facts about `Except.map`, `List.drop`, the whitespace skipper and
the scanning loops. -/

theorem except_map_map {ε α β γ : Type} (f : β → γ) (g : α → β) (e : Except ε α) :
    (e.map g).map f = e.map (fun a => f (g a)) := by
  cases e <;> rfl

theorem except_map_id {ε α : Type} (e : Except ε α) : e.map (fun a => a) = e := by
  cases e <;> rfl

theorem drop_shift {source X Y : List Char} {i : Nat} (h : source.drop i = X ++ Y) :
    source.drop (i + X.length) = Y := by
  rw [← List.drop_drop, h, List.drop_left]

theorem drop_len_eq {source X : List Char} {i : Nat} (h : source.drop i = X) :
    source.length - i = X.length := by
  rw [← h]
  exact (List.length_drop _ _).symm

theorem end_ne_start : ¬(BLOCK_END = BLOCK_START) := by decide

theorem sw_loop_ws {w : List Char} (rest : List Char)
    (hw : ∀ c ∈ w, c.isWhitespace) : ∀ i : Nat,
    sw_loop (w ++ rest) i = sw_loop rest (i + w.length) := by
  induction w with
  | nil => intro i; simp
  | cons c w ih =>
    intro i
    have hc : c.isWhitespace := hw c (by simp)
    have hrec := ih (fun c hc => hw c (by simp [hc])) (i + 1)
    rw [List.cons_append, sw_loop, if_pos hc, hrec]
    congr 1
    simp only [List.length_cons]
    omega

theorem skip_ws_eq {source w u : List Char} {i : Nat}
    (h : source.drop i = w ++ u) (hw : ∀ c ∈ w, c.isWhitespace)
    (hrest : headNotWs u) : skip_whitespace source i = i + w.length := by
  unfold skip_whitespace
  rw [h, sw_loop_ws u hw]
  cases u with
  | nil => rfl
  | cons c r =>
    simp only [headNotWs] at hrest
    simp [sw_loop, hrest]

theorem skip_ws_at {source : List Char} {i : Nat} (h : source.drop i = [])  :
    skip_whitespace source i = i := by
  have := skip_ws_eq (w := []) (u := []) (by simpa using h) (by simp) trivial
  simpa using this

theorem skip_ws_stay {source : List Char} {c : Char} {r : List Char} {i : Nat}
    (h : source.drop i = c :: r) (hc : c.isWhitespace = false) :
    skip_whitespace source i = i := by
  have := skip_ws_eq (w := []) (u := c :: r) (by simpa using h) (by simp)
    (by simpa [headNotWs] using hc)
  simpa using this

theorem scan_to_run {target : Char} : ∀ (pre : List Char) (rest : List Char) (i : Nat),
    (∀ c ∈ pre, c ≠ target) →
    scan_to target (pre ++ target :: rest) i = .ok (pre, i + pre.length) := by
  intro pre
  induction pre with
  | nil => intro rest i _; simp [scan_to]
  | cons c pre ih =>
    intro rest i hpre
    have hc : c ≠ target := (hpre c (by simp))
    have hrec := ih rest (i + 1) (fun x hx => hpre x (by simp [hx]))
    rw [List.cons_append, scan_to, if_neg hc, hrec]
    simp only [Except.map, List.length_cons]
    have harith : i + 1 + pre.length = i + (pre.length + 1) := by omega
    rw [harith]

theorem rb_loop_level0 (incl : Bool) (sd ed : Char) (rest : List Char) (i : Nat) :
    rb_loop incl sd ed rest i 0 = .ok ([], i) := by
  cases rest <;> simp [rb_loop]

theorem braceScan_append : ∀ (a : List Char) (b : List Char) (k : Nat),
    braceScan k (a ++ b) = (braceScan k a).bind (fun j => braceScan j b) := by
  intro a
  induction a with
  | nil => intro b k; simp [braceScan]
  | cons c a ih =>
    intro b k
    by_cases h1 : c = BLOCK_START
    · simp [braceScan, h1, ih]
    · by_cases h2 : c = BLOCK_END
      · cases k with
        | zero => simp [braceScan, h1, h2, end_ne_start]
        | succ k => simp [braceScan, h1, h2, end_ne_start, ih]
      · simp [braceScan, h1, h2, ih]

theorem braceScan_free : ∀ (a : List Char) (k : Nat),
    (∀ c ∈ a, c ≠ BLOCK_START ∧ c ≠ BLOCK_END) → braceScan k a = some k := by
  intro a
  induction a with
  | nil => intro k _; rfl
  | cons c a ih =>
    intro k h
    have hc := h c (by simp)
    simp [braceScan, hc.1, hc.2, ih k (fun x hx => h x (by simp [hx]))]

theorem braceScan_succ : ∀ (v : List Char) (k j : Nat),
    braceScan k v = some j → braceScan (k + 1) v = some (j + 1) := by
  intro v
  induction v with
  | nil =>
    intro k j h
    simp only [braceScan, Option.some.injEq] at h ⊢
    omega
  | cons c v ih =>
    intro k j h
    by_cases h1 : c = BLOCK_START
    · subst h1
      rw [braceScan, if_pos rfl] at h ⊢
      exact ih (k + 1) j h
    · by_cases h2 : c = BLOCK_END
      · subst h2
        cases k with
        | zero =>
          rw [braceScan, if_neg end_ne_start, if_pos rfl, if_pos rfl] at h
          exact absurd h (by simp)
        | succ k =>
          rw [braceScan, if_neg end_ne_start, if_pos rfl,
            if_neg (Nat.succ_ne_zero k)] at h
          rw [braceScan, if_neg end_ne_start, if_pos rfl,
            if_neg (Nat.succ_ne_zero (k + 1))]
          simp only [Nat.add_sub_cancel] at h ⊢
          exact ih k j h
      · rw [braceScan, if_neg h1, if_neg h2] at h ⊢
        exact ih k j h

theorem rb_loop_run (incl : Bool) : ∀ (interior : List Char) (k j : Nat)
    (rest : List Char) (i : Nat), braceScan k interior = some j →
    rb_loop incl BLOCK_START BLOCK_END (interior ++ rest) i (k + 1)
      = (rb_loop incl BLOCK_START BLOCK_END rest (i + interior.length) (j + 1)).map
          (fun p => (interior ++ p.1, p.2)) := by
  intro interior
  induction interior with
  | nil =>
    intro k j rest i h
    simp only [braceScan, Option.some.injEq] at h
    subst h
    simp [except_map_id]
  | cons c int ih =>
    intro k j rest i h
    have harith : i + 1 + int.length = i + (c :: int).length := by
      simp only [List.length_cons]
      omega
    by_cases h1 : c = BLOCK_START
    · subst h1
      rw [braceScan, if_pos rfl] at h
      have hrec := ih (k + 1) j rest (i + 1) h
      rw [List.cons_append, rb_loop, if_neg (Nat.succ_ne_zero k), if_pos (Or.inl rfl)]
      simp only [eq_self_iff_true, if_true]
      rw [hrec, except_map_map, harith]
      simp only [show ((0:Nat) < k + 1 + 1) = True by simp, true_or, or_true, if_true,
        List.cons_append]
    · by_cases h2 : c = BLOCK_END
      · subst h2
        cases k with
        | zero =>
          rw [braceScan, if_neg end_ne_start, if_pos rfl, if_pos rfl] at h
          exact absurd h (by simp)
        | succ k =>
          rw [braceScan, if_neg end_ne_start, if_pos rfl,
            if_neg (Nat.succ_ne_zero k)] at h
          simp only [Nat.add_sub_cancel] at h
          have hrec := ih k j rest (i + 1) h
          rw [List.cons_append, rb_loop, if_neg (Nat.succ_ne_zero (k + 1)),
            if_pos (Or.inr rfl), if_neg end_ne_start]
          simp only [Nat.add_sub_cancel, hrec, except_map_map, harith]
          simp only [show ((0:Nat) < k + 1) = True by simp, true_or, or_true, if_true,
            List.cons_append]
      · rw [braceScan, if_neg h1, if_neg h2] at h
        have hrec := ih k j rest (i + 1) h
        rw [List.cons_append, rb_loop, if_neg (Nat.succ_ne_zero k),
          if_neg (by tauto : ¬(c = BLOCK_START ∨ c = BLOCK_END))]
        rw [hrec, except_map_map, harith]
        simp only [List.cons_append]

/-- Claim C1, counterexample: the document parsed from `@x{n, k=a{b}}` has
the brace-unbalanced field value `a{b`; its serialization
`@x{n,\n  k={a{b}\n}` fails to reparse (the brace level never returns to
zero, an out-of-range read), so `serialize(parse(serialize(D)))` is not
`serialize(D)` for this successfully parsed document. -/
theorem C1_counterexample :
    BibtexDocument.init "@x\x7bn, k=a\x7bb\x7d\x7d".data = .ok c1CexDoc ∧
      roundTrip c1CexDoc = .error .indexError ∧
      roundTrip c1CexDoc ≠ .ok c1CexDoc.to_bibtex := by
  refine ⟨by decide, by decide, by decide⟩

/-- Claim C2: on the spec's scenario-1 input the parse does not succeed:
the bare token `2024` reaches the end of the entry body and the value
reader's unbounded loop raises `IndexError`. -/
theorem C2_scenario_raises :
    BibtexDocument.init "@article\x7bdoe2024, title=\x7bA Study\x7d, year=2024\x7d".data
      = .error .indexError := by decide

/-- Claim C4, counterexample: with `include_delimiters` requested on the
block `{a{b}c}`, the outermost closing delimiter is included in the returned
value, contradicting the claim that the outermost pair never is. -/
theorem C4_counterexample :
    read_next_block "\x7ba\x7bb\x7dc\x7d".data 0 true BLOCK_START BLOCK_END
        = .ok ("a\x7bb\x7dc\x7d".data, 7) ∧
      "a\x7bb\x7dc\x7d".data ≠ "a\x7bb\x7dc".data := by
  refine ⟨by decide, by decide⟩

/-- Claim C5: the value text `{outer {inner} text}` is read (by the field
value reader, `include_delimiters` off) as content `outer {inner} text`
with the nested braces kept verbatim; a whole entry carrying that value
parses to a field with exactly that content; and the serializer renders the
field's value part as `={outer {inner} text}`. -/
theorem C5_nested_braces :
    read_next_value "\x7bouter \x7binner\x7d text\x7d".data 0 false BLOCK_START BLOCK_END
        = .ok ("outer \x7binner\x7d text".data, 20) ∧
      BibtexDocument.init "@a\x7bn, k=\x7bouter \x7binner\x7d text\x7d\x7d".data
        = .ok ⟨[⟨"a".data, "n".data, [⟨"k".data, "outer \x7binner\x7d text".data⟩]⟩]⟩ ∧
      BibtexField.to_bibtex ⟨"k".data, "outer \x7binner\x7d text".data⟩
        = "k".data ++ "=\x7bouter \x7binner\x7d text\x7d".data := by
  refine ⟨by decide, by decide, by decide⟩

/-- Claim C8: the two-entry input `@misc{b, k={1}}` then `@misc{a, k={2}}`
parses; with `sort_entries` applied the serialization lists entry `a` before
entry `b`, and without it the original order `b` then `a` is preserved. -/
theorem C8_sort_scenario :
    BibtexDocument.init "@misc\x7bb, k=\x7b1\x7d\x7d\n\n@misc\x7ba, k=\x7b2\x7d\x7d".data
        = .ok ⟨[⟨"misc".data, "b".data, [⟨"k".data, "1".data⟩]⟩,
                ⟨"misc".data, "a".data, [⟨"k".data, "2".data⟩]⟩]⟩ ∧
      BibtexDocument.to_bibtex
          (BibtexDocument.sort_entries
            ⟨[⟨"misc".data, "b".data, [⟨"k".data, "1".data⟩]⟩,
              ⟨"misc".data, "a".data, [⟨"k".data, "2".data⟩]⟩]⟩)
        = "@misc\x7ba,\n  k=\x7b2\x7d\n\x7d\n\n@misc\x7bb,\n  k=\x7b1\x7d\n\x7d".data ∧
      BibtexDocument.to_bibtex
          ⟨[⟨"misc".data, "b".data, [⟨"k".data, "1".data⟩]⟩,
            ⟨"misc".data, "a".data, [⟨"k".data, "2".data⟩]⟩]⟩
        = "@misc\x7bb,\n  k=\x7b1\x7d\n\x7d\n\n@misc\x7ba,\n  k=\x7b2\x7d\n\x7d".data := by
  refine ⟨by decide, by decide, by decide⟩

/-- Claim C10: `@misc{a,}` parses to a single entry with an empty field
list, and serializing a zero-field entry still emits the header `@misc{a,`
followed by the two-space indent line and the closing `\n}`. -/
theorem C10_empty_fields :
    BibtexDocument.init "@misc\x7ba,\x7d".data
        = .ok ⟨[⟨"misc".data, "a".data, []⟩]⟩ ∧
      BibtexEntry.to_bibtex ⟨"misc".data, "a".data, []⟩
        = "@misc\x7ba,\n  \n\x7d".data := by
  refine ⟨by decide, by decide⟩

/-! The error paths of the value reader and the document parser. -/

theorem quote_loop_no_close : ∀ (rest : List Char) (i : Nat),
    (∀ c ∈ rest, c ≠ '"') → quote_loop rest i = .error .indexError := by
  intro rest
  induction rest with
  | nil => intro i _; rfl
  | cons c r ih =>
    intro i h
    rw [quote_loop, if_neg (h c (by simp)), ih (i + 1) (fun x hx => h x (by simp [hx]))]
    rfl

theorem rb_loop_no_close {incl : Bool} {rest : List Char} {j : Nat} (i : Nat)
    (hscan : braceScan 0 rest = some j) :
    rb_loop incl BLOCK_START BLOCK_END rest i 1 = .error .indexError := by
  have h := rb_loop_run incl rest 0 j [] i hscan
  rw [List.append_nil] at h
  rw [h, rb_loop, if_neg (Nat.succ_ne_zero j)]
  rfl

/-- Claim C6: when the first non-whitespace character of the input is not
the entry marker, document parsing raises the parser's own syntax error
carrying that character, and no document is produced (the result is an
error, not a partial entry list). -/
theorem C6_bad_marker : ∀ (source : List Char) (c : Char) (r : List Char),
    source.drop (skip_whitespace source 0) = c :: r → c ≠ '@' →
    BibtexDocument.init source = .error (.syntaxError c) := by
  intro source c r h hc
  unfold BibtexDocument.init
  rw [doc_loop, h]
  simp [hc, Except.map]

/-- Witness for C6 at the concrete input `x`. -/
theorem C6_bad_marker_witness :
    BibtexDocument.init "x".data = .error (.syntaxError 'x') :=
  C6_bad_marker "x".data 'x' [] (by decide) (by decide)

/-- Claim C3: whenever the brace nesting level opened by a block's first
delimiter never returns to zero before the input ends (expressed by
`braceScan 0 rest = some j`: the scan runs off the end without the level
closing), or a quoted literal's closing quote never occurs before the input
ends, the value reader stops with an explicit error — the embedding's
out-of-range branch, which models Python's raised `IndexError` — rather
than returning any value. -/
theorem C3_unterminated :
    (∀ (source : List Char) (start : Nat) (rest : List Char) (j : Nat),
        source.drop (skip_whitespace source start) = BLOCK_START :: rest →
        braceScan 0 rest = some j →
        read_next_value source start false BLOCK_START BLOCK_END = .error .indexError) ∧
    (∀ (source : List Char) (start : Nat) (rest : List Char),
        source.drop (skip_whitespace source start) = '"' :: rest →
        (∀ c ∈ rest, c ≠ '"') →
        read_next_value source start false BLOCK_START BLOCK_END = .error .indexError) := by
  constructor
  · intro source start rest j h hscan
    simp only [read_next_value, read_next_block, h]
    simp [rb_loop_no_close _ hscan]
  · intro source start rest h hq
    simp only [read_next_value, h]
    simp [show ¬('"' = BLOCK_START) by decide, quote_loop_no_close rest _ hq]

/-- Witness for C3: an unterminated block and an unterminated quoted
literal both make the value reader fail. -/
theorem C3_unterminated_witness :
    read_next_value "\x7bab".data 0 false BLOCK_START BLOCK_END = .error .indexError ∧
      read_next_value "\"ab".data 0 false BLOCK_START BLOCK_END = .error .indexError :=
  ⟨C3_unterminated.1 "\x7bab".data 0 "ab".data 0 (by decide) (by decide),
    C3_unterminated.2 "\"ab".data 0 "ab".data (by decide) (by decide)⟩

/-- Claim C4, amended: for a well-formed brace-balanced block, the reader
with `include_delimiters` requested returns the block interior with all
nested delimiters and, in addition, the outermost closing delimiter
appended; only the outermost opening delimiter is never included. -/
theorem C4_amended : ∀ (source : List Char) (start : Nat) (interior rest : List Char),
    source.drop (skip_whitespace source start) = BLOCK_START :: (interior ++ BLOCK_END :: rest) →
    braceScan 0 interior = some 0 →
    read_next_block source start true BLOCK_START BLOCK_END
      = .ok (interior ++ [BLOCK_END], skip_whitespace source start + interior.length + 2) := by
  intro source start interior rest h hscan
  simp only [read_next_block, h]
  rw [if_neg (by simp)]
  rw [rb_loop_run true interior 0 0 (BLOCK_END :: rest) _ hscan]
  rw [rb_loop, if_neg (Nat.succ_ne_zero 0), if_pos (Or.inr rfl), if_neg end_ne_start]
  simp only [Nat.sub_self, rb_loop_level0, Except.map, true_or, if_true, if_pos rfl]
  have harith : skip_whitespace source start + 1 + interior.length + 1
      = skip_whitespace source start + interior.length + 2 := by omega
  rw [harith]

/-- Witness for the amended C4 at the concrete block `{a{b}c}`. -/
theorem C4_amended_witness :
    read_next_block "\x7ba\x7bb\x7dc\x7d".data 0 true BLOCK_START BLOCK_END
      = .ok ("a\x7bb\x7dc\x7d".data, 7) :=
  C4_amended "\x7ba\x7bb\x7dc\x7d".data 0 "a\x7bb\x7dc".data [] (by decide) (by decide)

/-! The stable sort: membership, sortedness, and idempotence. -/

theorem insort_mem {α : Type} (le : α → α → Bool) (x : α) :
    ∀ (l : List α) (z : α), z ∈ insort le x l → z = x ∨ z ∈ l := by
  intro l
  induction l with
  | nil =>
    intro z hz
    rw [insort] at hz
    exact Or.inl (List.mem_singleton.mp hz)
  | cons y ys ih =>
    intro z hz
    by_cases h : le x y = true
    · rw [insort, if_pos h] at hz
      rcases List.mem_cons.mp hz with hz | hz
      · exact Or.inl hz
      · exact Or.inr hz
    · rw [insort, if_neg h] at hz
      rcases List.mem_cons.mp hz with hz | hz
      · exact Or.inr (by simp [hz])
      · rcases ih z hz with hz | hz
        · exact Or.inl hz
        · exact Or.inr (by simp [hz])

theorem insort_pairwise {α : Type} {le : α → α → Bool}
    (htot : ∀ a b, le a b = true ∨ le b a = true)
    (htrans : ∀ a b c, le a b = true → le b c = true → le a c = true)
    (x : α) : ∀ l : List α, l.Pairwise (fun a b => le a b = true) →
    (insort le x l).Pairwise (fun a b => le a b = true) := by
  intro l
  induction l with
  | nil => intro _; simp [insort]
  | cons y ys ih =>
    intro hp
    rcases List.pairwise_cons.mp hp with ⟨hy, hys⟩
    by_cases hxy : le x y = true
    · rw [insort, if_pos hxy]
      refine List.pairwise_cons.mpr ⟨?_, hp⟩
      intro z hz
      rcases List.mem_cons.mp hz with hz | hz
      · simpa [hz] using hxy
      · exact htrans x y z hxy (hy z hz)
    · rw [insort, if_neg hxy]
      refine List.pairwise_cons.mpr ⟨?_, ih hys⟩
      intro z hz
      rcases insort_mem le x ys z hz with hz | hz
      · rcases htot x y with h | h
        · exact absurd h hxy
        · rw [hz]
          exact h
      · exact hy z hz

theorem pysort_pairwise {α : Type} {le : α → α → Bool}
    (htot : ∀ a b, le a b = true ∨ le b a = true)
    (htrans : ∀ a b c, le a b = true → le b c = true → le a c = true) :
    ∀ l : List α, (pysort le l).Pairwise (fun a b => le a b = true) := by
  intro l
  induction l with
  | nil => simp [pysort]
  | cons x l ih => exact insort_pairwise htot htrans x (pysort le l) ih

theorem pysort_sorted_eq {α : Type} {le : α → α → Bool} :
    ∀ l : List α, l.Pairwise (fun a b => le a b = true) → pysort le l = l := by
  intro l
  induction l with
  | nil => intro _; rfl
  | cons x l ih =>
    intro hp
    rcases List.pairwise_cons.mp hp with ⟨hx, hl⟩
    show insort le x (pysort le l) = x :: l
    rw [ih hl]
    cases l with
    | nil => rfl
    | cons y ys => rw [insort, if_pos (hx y (by simp))]

theorem pysort_idem {α : Type} {le : α → α → Bool}
    (htot : ∀ a b, le a b = true ∨ le b a = true)
    (htrans : ∀ a b c, le a b = true → le b c = true → le a c = true)
    (l : List α) : pysort le (pysort le l) = pysort le l :=
  pysort_sorted_eq _ (pysort_pairwise htot htrans l)

/-! The lexicographic key order is total and transitive. -/

theorem lexLe_total : ∀ a b : List Char, lexLe a b = true ∨ lexLe b a = true := by
  intro a
  induction a with
  | nil => intro b; left; rfl
  | cons x as ih =>
    intro b
    cases b with
    | nil => right; rfl
    | cons y bs =>
      rcases lt_trichotomy x y with hlt | heq | hgt
      · left; rw [lexLe, if_pos hlt]
      · subst heq
        have h2 := ih bs
        rw [lexLe, if_neg (lt_irrefl x), if_neg (lt_irrefl x)]
        rw [lexLe, if_neg (lt_irrefl x), if_neg (lt_irrefl x)]
        exact h2
      · right; rw [lexLe, if_pos hgt]

theorem lexLe_trans : ∀ a b c : List Char,
    lexLe a b = true → lexLe b c = true → lexLe a c = true := by
  intro a
  induction a with
  | nil => intro b c _ _; rfl
  | cons x as ih =>
    intro b c h1 h2
    cases b with
    | nil => rw [lexLe] at h1; exact Bool.noConfusion h1
    | cons y bs =>
      cases c with
      | nil => rw [lexLe] at h2; exact Bool.noConfusion h2
      | cons z cs =>
        by_cases hxy : x < y
        · by_cases hyz : y < z
          · rw [lexLe, if_pos (lt_trans hxy hyz)]
          · by_cases hzy : z < y
            · rw [lexLe, if_neg hyz, if_pos hzy] at h2
              exact Bool.noConfusion h2
            · have heq : y = z := le_antisymm (le_of_not_lt hzy) (le_of_not_lt hyz)
              subst heq
              rw [lexLe, if_pos hxy]
        · by_cases hyx : y < x
          · rw [lexLe, if_neg hxy, if_pos hyx] at h1
            exact Bool.noConfusion h1
          · have heq : x = y := le_antisymm (le_of_not_lt hyx) (le_of_not_lt hxy)
            subst heq
            rw [lexLe, if_neg hxy, if_neg hxy] at h1
            by_cases hxz : x < z
            · rw [lexLe, if_pos hxz]
            · by_cases hzx : z < x
              · rw [lexLe, if_neg hxz, if_pos hzx] at h2
                exact Bool.noConfusion h2
              · have heq : x = z := le_antisymm (le_of_not_lt hzx) (le_of_not_lt hxz)
                subst heq
                rw [lexLe, if_neg hxz, if_neg hxz] at h2
                rw [lexLe, if_neg hxz, if_neg hxz]
                exact ih bs cs h1 h2

/-- Claim C7: both sort transforms are idempotent — sorting the entries of
a document twice gives the entry order of sorting once, and sorting the
fields of any entry twice gives the field order of sorting once (stated for
every entry, hence independent of where the entry sits in a document). -/
theorem C7_sort_idempotent :
    (∀ d : BibtexDocument, d.sort_entries.sort_entries = d.sort_entries) ∧
      (∀ e : BibtexEntry, e.sort_fields.sort_fields = e.sort_fields) := by
  constructor
  · intro d
    unfold BibtexDocument.sort_entries
    exact congrArg BibtexDocument.mk
      (pysort_idem (fun a b => lexLe_total a.name b.name)
        (fun a b c => lexLe_trans a.name b.name c.name) d.entries)
  · intro e
    unfold BibtexEntry.sort_fields
    exact congrArg (BibtexEntry.mk e.type e.name)
      (pysort_idem (fun a b => lexLe_total a.key b.key)
        (fun a b c => lexLe_trans a.key b.key c.key) e.fields)

/-! `pyStrip` facts: it only trims edge whitespace, its result has none, and
it is idempotent. -/

theorem dropWhile_head_false {p : Char → Bool} : ∀ (l : List Char) (c : Char)
    (r : List Char), l.dropWhile p = c :: r → p c = false := by
  intro l
  induction l with
  | nil => intro c r h; exact absurd h (by simp)
  | cons a l ih =>
    intro c r h
    by_cases ha : p a = true
    · rw [List.dropWhile_cons, if_pos ha] at h
      exact ih c r h
    · rw [List.dropWhile_cons, if_neg ha] at h
      cases h
      exact Bool.not_eq_true _ |>.mp ha

theorem dropWhile_eq_self {l : List Char} (h : headNotWs l) :
    l.dropWhile Char.isWhitespace = l := by
  cases l with
  | nil => rfl
  | cons c r =>
    simp only [headNotWs] at h
    rw [List.dropWhile_cons, if_neg (by simp [h])]

theorem strip_mid (l : List Char) :
    l.dropWhile Char.isWhitespace
      = pyStrip l
        ++ ((l.dropWhile Char.isWhitespace).reverse.takeWhile Char.isWhitespace).reverse := by
  have h := List.takeWhile_append_dropWhile Char.isWhitespace
    (l.dropWhile Char.isWhitespace).reverse
  have h2 := congrArg List.reverse h
  rw [List.reverse_append, List.reverse_reverse] at h2
  exact h2.symm

theorem pyStrip_decomp (l : List Char) :
    ∃ pre suf, l = pre ++ pyStrip l ++ suf ∧
      (∀ c ∈ pre, c.isWhitespace) ∧ ∀ c ∈ suf, c.isWhitespace := by
  refine ⟨l.takeWhile Char.isWhitespace,
    ((l.dropWhile Char.isWhitespace).reverse.takeWhile Char.isWhitespace).reverse,
    ?_, ?_, ?_⟩
  · rw [List.append_assoc, ← strip_mid, List.takeWhile_append_dropWhile]
  · intro c hc
    exact List.mem_takeWhile_imp hc
  · intro c hc
    exact List.mem_takeWhile_imp (List.mem_reverse.mp hc)

theorem pyStrip_headNotWs (l : List Char) : headNotWs (pyStrip l) := by
  cases hp : pyStrip l with
  | nil => trivial
  | cons c r =>
    have hm := strip_mid l
    rw [hp] at hm
    simp only [headNotWs]
    exact dropWhile_head_false l c _ (by rw [hm, List.cons_append])

theorem pyStrip_rev_headNotWs (l : List Char) : headNotWs (pyStrip l).reverse := by
  have : (pyStrip l).reverse
      = (l.dropWhile Char.isWhitespace).reverse.dropWhile Char.isWhitespace := by
    unfold pyStrip
    rw [List.reverse_reverse]
  cases hp : (pyStrip l).reverse with
  | nil => trivial
  | cons c r =>
    rw [this] at hp
    simp only [headNotWs]
    exact dropWhile_head_false _ c r hp

theorem pyStrip_fix {l : List Char} (h1 : headNotWs l) (h2 : headNotWs l.reverse) :
    pyStrip l = l := by
  unfold pyStrip
  rw [dropWhile_eq_self h1, dropWhile_eq_self h2, List.reverse_reverse]

theorem pyStrip_idem (l : List Char) : pyStrip (pyStrip l) = pyStrip l :=
  pyStrip_fix (pyStrip_headNotWs l) (pyStrip_rev_headNotWs l)

/-! Step equations for the two fuelled loops. -/

theorem except_bind_ok {e a b : Type} (x : a) (f : a → Except e b) :
    (Except.ok x : Except e a).bind f = f x := rfl

theorem except_bind_error {e a b : Type} (err : e) (f : a → Except e b) :
    (Except.error err : Except e a).bind f = .error err := rfl

theorem fields_loop_zero (source : List Char) (i : Nat) (acc : List BibtexField) :
    fields_loop source 0 i acc = .error .indexError := rfl

theorem fields_loop_nil (source : List Char) (fuel i : Nat) (acc : List BibtexField)
    (h : source.drop i = []) : fields_loop source (fuel + 1) i acc = .ok acc := by
  rw [fields_loop, h]

theorem fields_loop_cons (source : List Char) (fuel i : Nat) (acc : List BibtexField)
    {c : Char} {r : List Char} (h : source.drop i = c :: r) :
    fields_loop source (fuel + 1) i acc
      = (scan_to '=' (c :: r) i).bind fun kp =>
          (read_next_value source (skip_whitespace source (kp.2 + 1)) false
              BLOCK_START BLOCK_END).bind fun vp =>
            fields_loop source fuel (skip_whitespace source (vp.2 + 1))
              (acc ++ [⟨pyStrip kp.1, pyStrip vp.1⟩]) := by
  conv_lhs => rw [fields_loop, h]

theorem doc_loop_zero (source : List Char) (i : Nat) (acc : List BibtexEntry) :
    doc_loop source 0 i acc = .error .indexError := rfl

theorem doc_loop_nil (source : List Char) (fuel i : Nat) (acc : List BibtexEntry)
    (h : source.drop i = []) : doc_loop source (fuel + 1) i acc = .ok acc := by
  rw [doc_loop, h]

theorem doc_loop_cons (source : List Char) (fuel i : Nat) (acc : List BibtexEntry)
    {c : Char} {r : List Char} (h : source.drop i = c :: r) :
    doc_loop source (fuel + 1) i acc
      = if c = '@' then
          (scan_to BLOCK_START (source.drop (i + 1)) (i + 1)).bind fun tp =>
            (read_next_value source tp.2 false BLOCK_START BLOCK_END).bind fun bp =>
              (BibtexEntry.init (pyStrip tp.1) bp.1).bind fun entry =>
                doc_loop source fuel (skip_whitespace source bp.2) (acc ++ [entry])
        else .error (.syntaxError c) := by
  conv_lhs => rw [doc_loop, h]

/-! The parser builds every name, key and value through `pyStrip`. -/

theorem fields_loop_inv (source : List Char) : ∀ (fuel i : Nat)
    (acc res : List BibtexField), fields_loop source fuel i acc = .ok res →
    (∀ f ∈ acc, (∃ k, f.key = pyStrip k) ∧ ∃ v, f.value = pyStrip v) →
    ∀ f ∈ res, (∃ k, f.key = pyStrip k) ∧ ∃ v, f.value = pyStrip v := by
  intro fuel
  induction fuel with
  | zero =>
    intro i acc res h _ f hf
    rw [fields_loop_zero] at h
    exact absurd h (by simp)
  | succ fuel ih =>
    intro i acc res h hacc f hf
    cases hd : source.drop i with
    | nil =>
      rw [fields_loop_nil source fuel i acc hd] at h
      cases h
      exact hacc f hf
    | cons c r =>
      rw [fields_loop_cons source fuel i acc hd] at h
      cases hscan : scan_to '=' (c :: r) i with
      | error err =>
        rw [hscan, except_bind_error] at h
        exact absurd h (by simp)
      | ok kp =>
        rw [hscan, except_bind_ok] at h
        cases hval : read_next_value source (skip_whitespace source (kp.2 + 1)) false
            BLOCK_START BLOCK_END with
        | error err =>
          rw [hval, except_bind_error] at h
          exact absurd h (by simp)
        | ok vp =>
          rw [hval, except_bind_ok] at h
          refine ih _ _ res h ?_ f hf
          intro g hg
          rcases List.mem_append.mp hg with hg | hg
          · exact hacc g hg
          · rcases List.mem_singleton.mp hg with rfl
            exact ⟨⟨_, rfl⟩, ⟨_, rfl⟩⟩

theorem entry_init_inv {t src : List Char} {e : BibtexEntry}
    (h : BibtexEntry.init t src = .ok e) :
    (∃ n, e.name = pyStrip n) ∧
      ∀ f ∈ e.fields, (∃ k, f.key = pyStrip k) ∧ ∃ v, f.value = pyStrip v := by
  unfold BibtexEntry.init at h
  cases hscan : scan_to LIST_SEP src 0 with
  | error err =>
    rw [hscan, except_bind_error] at h
    exact absurd h (by simp)
  | ok np =>
    rw [hscan, except_bind_ok] at h
    cases hfl : fields_loop src (src.length + 1) (skip_whitespace src (np.2 + 1)) [] with
    | error err =>
      rw [hfl, except_bind_error] at h
      exact absurd h (by simp)
    | ok fs =>
      rw [hfl, except_bind_ok] at h
      cases h
      exact ⟨⟨_, rfl⟩, fields_loop_inv src _ _ [] fs hfl (by simp)⟩

theorem doc_loop_inv (source : List Char) : ∀ (fuel i : Nat)
    (acc res : List BibtexEntry), doc_loop source fuel i acc = .ok res →
    (∀ e ∈ acc, (∃ n, e.name = pyStrip n) ∧
      ∀ f ∈ e.fields, (∃ k, f.key = pyStrip k) ∧ ∃ v, f.value = pyStrip v) →
    ∀ e ∈ res, (∃ n, e.name = pyStrip n) ∧
      ∀ f ∈ e.fields, (∃ k, f.key = pyStrip k) ∧ ∃ v, f.value = pyStrip v := by
  intro fuel
  induction fuel with
  | zero =>
    intro i acc res h _ e he
    rw [doc_loop_zero] at h
    exact absurd h (by simp)
  | succ fuel ih =>
    intro i acc res h hacc e he
    cases hd : source.drop i with
    | nil =>
      rw [doc_loop_nil source fuel i acc hd] at h
      cases h
      exact hacc e he
    | cons c r =>
      rw [doc_loop_cons source fuel i acc hd] at h
      by_cases hc : c = '@'
      · rw [if_pos hc] at h
        cases hscan : scan_to BLOCK_START (source.drop (i + 1)) (i + 1) with
        | error err =>
          rw [hscan, except_bind_error] at h
          exact absurd h (by simp)
        | ok tp =>
          rw [hscan, except_bind_ok] at h
          cases hval : read_next_value source tp.2 false BLOCK_START BLOCK_END with
          | error err =>
            rw [hval, except_bind_error] at h
            exact absurd h (by simp)
          | ok bp =>
            rw [hval, except_bind_ok] at h
            cases hent : BibtexEntry.init (pyStrip tp.1) bp.1 with
            | error err =>
              rw [hent, except_bind_error] at h
              exact absurd h (by simp)
            | ok entry =>
              rw [hent, except_bind_ok] at h
              refine ih _ _ res h ?_ e he
              intro g hg
              rcases List.mem_append.mp hg with hg | hg
              · exact hacc g hg
              · rcases List.mem_singleton.mp hg with rfl
                exact entry_init_inv hent
      · rw [if_neg hc] at h
        exact absurd h (by simp)

/-- Claim C9: in every successfully parsed document, entry names, field
keys and field values carry no leading or trailing whitespace (each is a
fixpoint of `pyStrip`); and `pyStrip` only removes edge whitespace — every
string is a whitespace prefix, its stripped core kept verbatim, and a
whitespace suffix — so whitespace interior to a value is preserved exactly
as it stood in the source slice the value was read from. -/
theorem C9_stripped :
    (∀ (source : List Char) (d : BibtexDocument), BibtexDocument.init source = .ok d →
      ∀ e ∈ d.entries, pyStrip e.name = e.name ∧
        ∀ f ∈ e.fields, pyStrip f.key = f.key ∧ pyStrip f.value = f.value) ∧
    ∀ l : List Char, ∃ pre suf, l = pre ++ pyStrip l ++ suf ∧
      (∀ c ∈ pre, c.isWhitespace) ∧ ∀ c ∈ suf, c.isWhitespace := by
  constructor
  · intro source d h e he
    unfold BibtexDocument.init at h
    cases hdoc : doc_loop source (source.length + 1) (skip_whitespace source 0) [] with
    | error err => rw [hdoc] at h; exact absurd h (by simp [Except.map])
    | ok es =>
      rw [hdoc] at h
      simp only [Except.map, Except.ok.injEq] at h
      have hinv := doc_loop_inv source _ _ [] es hdoc (by simp) e (by rw [← h] at he; exact he)
      refine ⟨?_, ?_⟩
      · rcases hinv.1 with ⟨n, hn⟩
        rw [hn, pyStrip_idem]
      · intro f hf
        rcases hinv.2 f hf with ⟨⟨k, hk⟩, ⟨v, hv⟩⟩
        rw [hk, hv, pyStrip_idem, pyStrip_idem]
        exact ⟨rfl, rfl⟩
  · exact pyStrip_decomp

/-- Witness for C9 at the concrete parse of one entry. -/
theorem C9_stripped_witness :
    pyStrip ("b".data) = "b".data ∧
      ∀ f ∈ ([⟨"k".data, "1".data⟩] : List BibtexField),
        pyStrip f.key = f.key ∧ pyStrip f.value = f.value :=
  C9_stripped.1 "@misc\x7bb, k=\x7b1\x7d\x7d".data
    ⟨[⟨"misc".data, "b".data, [⟨"k".data, "1".data⟩]⟩]⟩ (by decide)
    ⟨"misc".data, "b".data, [⟨"k".data, "1".data⟩]⟩ (by decide)

/-! Facts about `Char.toLower` as the model of `str.lower`. -/

theorem char_toNat_ofNat {n : Nat} (h : n < 55296) : (Char.ofNat n).toNat = n := by
  unfold Char.ofNat
  rw [dif_pos (Or.inl h)]
  rfl

theorem toLower_eq (c : Char) :
    Char.toLower c
      = if c.toNat ≥ 65 ∧ c.toNat ≤ 90 then Char.ofNat (c.toNat + 32) else c := rfl

theorem toLower_toNat_of_upper {c : Char} (h : c.toNat ≥ 65 ∧ c.toNat ≤ 90) :
    (Char.toLower c).toNat = c.toNat + 32 := by
  rw [toLower_eq, if_pos h]
  exact char_toNat_ofNat (by omega)

theorem toLower_idem (c : Char) : Char.toLower (Char.toLower c) = Char.toLower c := by
  by_cases h : c.toNat ≥ 65 ∧ c.toNat ≤ 90
  · have ht := toLower_toNat_of_upper h
    rw [toLower_eq (Char.toLower c), if_neg (by rw [ht]; omega)]
  · simp only [toLower_eq c, if_neg h]

theorem ws_false_of_ge (c : Char) (h : 65 ≤ c.toNat) : c.isWhitespace = false := by
  cases hw : c.isWhitespace
  · rfl
  · exfalso
    have hw2 : c = ' ' ∨ c = '\t' ∨ c = '\r' ∨ c = '\n' := by
      simpa [Char.isWhitespace, or_assoc] using hw
    rcases hw2 with h1 | h1 | h1 | h1 <;> (rw [h1] at h; exact absurd h (by decide))

theorem ws_of_toLower (c : Char) : (Char.toLower c).isWhitespace = c.isWhitespace := by
  by_cases h : c.toNat ≥ 65 ∧ c.toNat ≤ 90
  · have ht := toLower_toNat_of_upper h
    have h1 : c.isWhitespace = false := ws_false_of_ge c (by omega)
    have h2 : (Char.toLower c).isWhitespace = false := ws_false_of_ge _ (by omega)
    rw [h1, h2]
  · rw [toLower_eq, if_neg h]

theorem toLower_eq_start {c : Char} (h : Char.toLower c = BLOCK_START) :
    c = BLOCK_START := by
  by_cases hu : c.toNat ≥ 65 ∧ c.toNat ≤ 90
  · exfalso
    have ht := toLower_toNat_of_upper hu
    have h2 : (Char.toLower c).toNat = BLOCK_START.toNat := congrArg Char.toNat h
    rw [ht] at h2
    have hb : BLOCK_START.toNat = 123 := rfl
    rw [hb] at h2
    omega
  · rw [toLower_eq, if_neg hu] at h
    exact h

theorem lowerStr_idem (t : List Char) : lowerStr (lowerStr t) = lowerStr t := by
  unfold lowerStr
  rw [List.map_map]
  exact List.map_congr_left (fun a _ => toLower_idem a)

theorem pyStrip_lowerStr (t : List Char) : pyStrip (lowerStr t) = lowerStr (pyStrip t) := by
  unfold pyStrip lowerStr
  have hcomp : (Char.isWhitespace ∘ Char.toLower) = Char.isWhitespace :=
    funext fun c => ws_of_toLower c
  rw [List.dropWhile_map, hcomp, ← List.map_reverse, List.dropWhile_map, hcomp,
    ← List.map_reverse]

theorem not_start_mem_lower {t : List Char} (h : ∀ c ∈ t, c ≠ BLOCK_START) :
    ∀ c ∈ lowerStr t, c ≠ BLOCK_START := by
  intro c hc
  rcases List.mem_map.mp hc with ⟨a, ha, rfl⟩
  intro hl
  exact h a ha (toLower_eq_start hl)

/-! Brace balance of the serialized forms, and their shapes. -/

theorem field_balanced {f : BibtexField} (hf : wf_field f) :
    braceScan 0 f.to_bibtex = some 0 := by
  obtain ⟨_, hkc, _, hb⟩ := hf
  unfold BibtexField.to_bibtex
  rw [braceScan_append,
    braceScan_free f.key 0 (fun c hc => ⟨(hkc c hc).2.1, (hkc c hc).2.2⟩)]
  simp only [Option.bind]
  rw [braceScan, if_neg (by decide), if_neg (by decide)]
  rw [braceScan, if_pos rfl]
  rw [braceScan_append, braceScan_succ f.value 0 0 hb]
  simp only [Option.bind]
  decide

theorem join_fields_balanced : ∀ (fs : List BibtexField), (∀ f ∈ fs, wf_field f) →
    braceScan 0
        (joinSep (LIST_SEP :: '\n' :: ' ' :: ' ' :: []) (fs.map BibtexField.to_bibtex))
      = some 0 := by
  intro fs
  induction fs with
  | nil => intro _; rfl
  | cons f fs ih =>
    intro h
    cases fs with
    | nil => exact field_balanced (h f (by simp))
    | cons f2 fs2 =>
      have h1 := field_balanced (h f (by simp))
      have h2 := ih (fun g hg => h g (by simp [hg]))
      rw [List.map_cons, List.map_cons, joinSep, List.append_assoc, braceScan_append, h1]
      simp only [Option.bind, List.cons_append, List.nil_append]
      rw [braceScan, if_neg (by decide), if_neg (by decide)]
      rw [braceScan, if_neg (by decide), if_neg (by decide)]
      rw [braceScan, if_neg (by decide), if_neg (by decide)]
      rw [braceScan, if_neg (by decide), if_neg (by decide)]
      rw [← List.map_cons]
      exact h2

theorem interior_balanced {e : BibtexEntry} (he : wf_entry e) :
    braceScan 0 (entryInterior e) = some 0 := by
  obtain ⟨_, _, _, hnc, hf⟩ := he
  unfold entryInterior
  rw [braceScan_append,
    braceScan_free e.name 0 (fun c hc => ⟨(hnc c hc).2.1, (hnc c hc).2.2⟩)]
  simp only [Option.bind]
  rw [braceScan, if_neg (by decide), if_neg (by decide)]
  rw [braceScan, if_neg (by decide), if_neg (by decide)]
  rw [braceScan, if_neg (by decide), if_neg (by decide)]
  rw [braceScan, if_neg (by decide), if_neg (by decide)]
  rw [braceScan_append, join_fields_balanced e.fields hf]
  simp only [Option.bind]
  decide

theorem entry_tb_shape (e : BibtexEntry) :
    e.to_bibtex
      = '@' :: (lowerStr e.type ++ (BLOCK_START :: (entryInterior e ++ [BLOCK_END]))) := by
  unfold BibtexEntry.to_bibtex entryInterior
  simp [List.append_assoc]

theorem fieldsText_eq : ∀ (f : BibtexField) (fs : List BibtexField),
    joinSep (LIST_SEP :: '\n' :: ' ' :: ' ' :: [])
        ((f :: fs).map BibtexField.to_bibtex) ++ ['\n']
      = fieldsText (f :: fs) := by
  intro f fs
  induction fs generalizing f with
  | nil => rfl
  | cons f2 fs2 ih =>
    rw [List.map_cons, List.map_cons, joinSep, ← List.map_cons, fieldsText]
    rw [List.append_assoc, List.append_assoc, ih f2]
    simp [List.append_assoc]

theorem fieldsText_ne_nil (f : BibtexField) (fs : List BibtexField) :
    fieldsText (f :: fs) ≠ [] := by
  cases fs <;> simp [fieldsText, BibtexField.to_bibtex]

theorem fieldsText_headNotWs {f : BibtexField} (hf : wf_field f)
    (fs : List BibtexField) : headNotWs (fieldsText (f :: fs)) := by
  obtain ⟨hk, _, _, _⟩ := hf
  obtain ⟨T, hT⟩ : ∃ T, fieldsText (f :: fs) = f.to_bibtex ++ T := by
    cases fs with
    | nil => exact ⟨['\n'], rfl⟩
    | cons f2 fs2 => exact ⟨_, rfl⟩
  rw [hT]
  unfold BibtexField.to_bibtex
  cases hkey : f.key with
  | nil =>
    simp only [List.nil_append, List.cons_append, headNotWs]
    decide
  | cons k ks =>
    have hh := pyStrip_headNotWs f.key
    rw [hk, hkey] at hh
    simp only [headNotWs] at hh
    simp only [List.cons_append, List.append_assoc, headNotWs]
    exact hh

theorem entriesText_cons_shape (e : BibtexEntry) (es : List BibtexEntry) :
    ∃ T, entriesText (e :: es)
        = '@' :: (lowerStr e.type ++ (BLOCK_START :: (entryInterior e ++ (BLOCK_END :: T)))) ∧
      ((es = [] ∧ T = []) ∨
        ∃ e2 es2, es = e2 :: es2 ∧ T = '\n' :: '\n' :: entriesText es) := by
  cases es with
  | nil =>
    refine ⟨[], ?_, Or.inl ⟨rfl, rfl⟩⟩
    show e.to_bibtex = _
    rw [entry_tb_shape]
  | cons e2 es2 =>
    refine ⟨'\n' :: '\n' :: entriesText (e2 :: es2), ?_, Or.inr ⟨e2, es2, rfl, rfl⟩⟩
    show e.to_bibtex ++ '\n' :: '\n' :: entriesText (e2 :: es2) = _
    rw [entry_tb_shape]
    simp [List.append_assoc]

theorem entriesText_headNotWs : ∀ es : List BibtexEntry, headNotWs (entriesText es) := by
  intro es
  cases es with
  | nil => trivial
  | cons e es =>
    obtain ⟨T, hT, _⟩ := entriesText_cons_shape e es
    rw [hT]
    simp only [headNotWs]
    decide

/-- Reading a serialized `{value}` at a cursor standing on its opening
brace: the balanced interior comes back verbatim and the cursor lands just
past the closing brace. -/
theorem rnv_block {source : List Char} {i : Nat} {v rest2 : List Char}
    (h : source.drop i = BLOCK_START :: (v ++ BLOCK_END :: rest2))
    (hbal : braceScan 0 v = some 0) :
    read_next_value source i false BLOCK_START BLOCK_END
      = .ok (v, i + v.length + 2) := by
  have hsw : skip_whitespace source i = i := skip_ws_stay h (by decide)
  simp only [read_next_value, hsw, h]
  rw [if_true]
  simp only [read_next_block, hsw, h]
  rw [if_neg (by simp)]
  rw [rb_loop_run false v 0 0 (BLOCK_END :: rest2) _ hbal]
  rw [rb_loop, if_neg (Nat.succ_ne_zero 0), if_pos (Or.inr rfl), if_neg end_ne_start]
  simp only [Nat.sub_self, rb_loop_level0, Except.map,
    show ((false = true ∨ 0 < 0)) = False by simp, if_false, List.append_nil]
  have harith : i + 1 + v.length + 1 = i + v.length + 2 := by omega
  rw [harith]

/-- Reparsing the serialized field region: the field loop reads back exactly
the fields it came from. -/
theorem fields_round (source : List Char) : ∀ (fs : List BibtexField),
    (∀ f ∈ fs, wf_field f) → ∀ (i : Nat) (acc : List BibtexField) (fuel : Nat),
    source.drop i = fieldsText fs → source.length - i < fuel →
    fields_loop source fuel i acc = .ok (acc ++ fs) := by
  intro fs
  induction fs with
  | nil =>
    intro _ i acc fuel hdrop hfuel
    cases fuel with
    | zero => omega
    | succ fuel =>
      rw [fields_loop_nil source fuel i acc hdrop]
      simp
  | cons f fs ih =>
    intro hwf i acc fuel hdrop hfuel
    obtain ⟨hkstrip, hkchars, hvstrip, hbal⟩ := hwf f (by simp)
    cases fuel with
    | zero => omega
    | succ fuel =>
    obtain ⟨T, hT, hTcase⟩ : ∃ T, fieldsText (f :: fs) = f.to_bibtex ++ T ∧
        ((fs = [] ∧ T = ['\n']) ∨
          ∃ f2 fs2, fs = f2 :: fs2 ∧ T = LIST_SEP :: '\n' :: ' ' :: ' ' :: fieldsText fs) := by
      cases fs with
      | nil => exact ⟨['\n'], rfl, Or.inl ⟨rfl, rfl⟩⟩
      | cons f2 fs2 => exact ⟨_, rfl, Or.inr ⟨f2, fs2, rfl, rfl⟩⟩
    have hshape : source.drop i
        = f.key ++ ('=' :: BLOCK_START :: (f.value ++ BLOCK_END :: T)) := by
      rw [hdrop, hT]
      unfold BibtexField.to_bibtex
      simp [List.append_assoc]
    obtain ⟨c0, r0, hcr⟩ : ∃ c0 r0, source.drop i = c0 :: r0 := by
      cases hx : source.drop i with
      | nil =>
        rw [hdrop] at hx
        exact absurd hx (fieldsText_ne_nil f fs)
      | cons c r => exact ⟨c, r, rfl⟩
    rw [fields_loop_cons source fuel i acc hcr]
    have hscan : scan_to '=' (c0 :: r0) i = .ok (f.key, i + f.key.length) := by
      rw [← hcr, hshape]
      exact scan_to_run f.key _ i (fun c hc => (hkchars c hc).1)
    have hd2 : source.drop (i + f.key.length + 1)
        = BLOCK_START :: (f.value ++ BLOCK_END :: T) := by
      have h1 : source.drop i
          = (f.key ++ ['=']) ++ (BLOCK_START :: (f.value ++ BLOCK_END :: T)) := by
        rw [hshape]
        simp [List.append_assoc]
      have h2 := drop_shift h1
      have h3 : i + (f.key ++ ['=']).length = i + f.key.length + 1 := by
        simp only [List.length_append, List.length_cons, List.length_nil]
        omega
      rw [h3] at h2
      exact h2
    have hsw1 : skip_whitespace source (i + f.key.length + 1) = i + f.key.length + 1 :=
      skip_ws_stay hd2 (by decide)
    have hval := rnv_block hd2 hbal
    simp only [hscan, except_bind_ok, hsw1, hval]
    have hd3 : source.drop (i + f.key.length + 1 + f.value.length + 2) = T := by
      have h1 : source.drop (i + f.key.length + 1)
          = (BLOCK_START :: (f.value ++ [BLOCK_END])) ++ T := by
        rw [hd2]
        simp [List.append_assoc]
      have h2 := drop_shift h1
      have h3 : i + f.key.length + 1 + (BLOCK_START :: (f.value ++ [BLOCK_END])).length
          = i + f.key.length + 1 + f.value.length + 2 := by
        simp
        omega
      rw [h3] at h2
      exact h2
    have hlen : source.length - i = (fieldsText (f :: fs)).length := drop_len_eq hdrop
    have htblen : f.to_bibtex.length = f.key.length + f.value.length + 3 := by
      simp [BibtexField.to_bibtex]
      omega
    rcases hTcase with ⟨hfs, hTeq⟩ | ⟨f2, fs2, hfs, hTeq⟩
    · subst hfs
      subst hTeq
      have hd4 : source.drop (i + f.key.length + 1 + f.value.length + 2 + 1) = [] := by
        have h2 := drop_shift (X := ['\n']) (Y := []) (by simpa using hd3)
        simpa using h2
      have hsw2 : skip_whitespace source (i + f.key.length + 1 + f.value.length + 2 + 1)
          = i + f.key.length + 1 + f.value.length + 2 + 1 := skip_ws_at hd4
      simp only [hkstrip, hvstrip, hsw2]
      have hlen2 := drop_len_eq hd4
      have hlentext : (fieldsText [f]).length = f.key.length + f.value.length + 4 := by
        rw [hT]
        simp only [List.length_append, htblen]
        simp
      have hfuel2 : source.length - (i + f.key.length + 1 + f.value.length + 2 + 1)
          < fuel := by
        rw [hlentext] at hlen
        simp only [List.length_nil] at hlen2
        omega
      have hrec := ih (by simp) _ (acc ++ [⟨f.key, f.value⟩]) fuel hd4 hfuel2
      rw [show (⟨f.key, f.value⟩ : BibtexField) = f from rfl] at hrec
      rw [show (⟨f.key, f.value⟩ : BibtexField) = f from rfl]
      rw [hrec]
      simp
    · subst hTeq
      have hd4 : source.drop (i + f.key.length + 1 + f.value.length + 2 + 1)
          = '\n' :: ' ' :: ' ' :: fieldsText fs := by
        have h2 := drop_shift (X := [LIST_SEP])
          (Y := '\n' :: ' ' :: ' ' :: fieldsText fs) (by simpa using hd3)
        simpa using h2
      have hsw2 : skip_whitespace source (i + f.key.length + 1 + f.value.length + 2 + 1)
          = i + f.key.length + 1 + f.value.length + 2 + 1 + 3 := by
        have := skip_ws_eq (w := ['\n', ' ', ' ']) (u := fieldsText fs)
          (by simpa using hd4) (by decide)
          (by rw [hfs]; exact fieldsText_headNotWs (hwf f2 (by simp [hfs])) fs2)
        simpa using this
      have hd5 : source.drop (i + f.key.length + 1 + f.value.length + 2 + 1 + 3)
          = fieldsText fs := by
        have h2 := drop_shift (X := ['\n', ' ', ' ']) (Y := fieldsText fs)
          (by simpa using hd4)
        simpa using h2
      simp only [hkstrip, hvstrip, hsw2]
      have hlen2 := drop_len_eq hd5
      have hlentext : (fieldsText (f :: fs)).length
          = f.key.length + f.value.length + 7 + (fieldsText fs).length := by
        rw [hT]
        simp only [List.length_append, htblen, List.length_cons]
        omega
      have hfuel2 : source.length - (i + f.key.length + 1 + f.value.length + 2 + 1 + 3)
          < fuel := by
        rw [hlentext] at hlen
        omega
      have hrec := ih (fun g hg => hwf g (by simp [hg])) _ (acc ++ [⟨f.key, f.value⟩])
        fuel hd5 hfuel2
      rw [show (⟨f.key, f.value⟩ : BibtexField) = f from rfl] at hrec
      rw [show (⟨f.key, f.value⟩ : BibtexField) = f from rfl]
      rw [hrec]
      simp

/-- Reparsing a serialized entry body: `BibtexEntry.__init__` on the
interior text of a serialized entry returns the name and fields it came
from. -/
theorem entry_round (t name : List Char) (fs : List BibtexField)
    (hname : pyStrip name = name) (hnc : ∀ c ∈ name, c ≠ LIST_SEP)
    (hfs : ∀ f ∈ fs, wf_field f) :
    BibtexEntry.init t
        (name ++ LIST_SEP :: '\n' :: ' ' :: ' ' ::
          (joinSep (LIST_SEP :: '\n' :: ' ' :: ' ' :: [])
            (fs.map BibtexField.to_bibtex) ++ ['\n']))
      = .ok ⟨t, name, fs⟩ := by
  unfold BibtexEntry.init
  have hscan : scan_to LIST_SEP
      (name ++ LIST_SEP :: '\n' :: ' ' :: ' ' ::
        (joinSep (LIST_SEP :: '\n' :: ' ' :: ' ' :: [])
          (fs.map BibtexField.to_bibtex) ++ ['\n'])) 0
      = .ok (name, name.length) := by
    have := scan_to_run name ('\n' :: ' ' :: ' ' ::
      (joinSep (LIST_SEP :: '\n' :: ' ' :: ' ' :: [])
        (fs.map BibtexField.to_bibtex) ++ ['\n'])) 0 hnc
    rw [show 0 + name.length = name.length from by omega] at this
    exact this
  simp only [hscan, except_bind_ok]
  have hb1 : (name ++ LIST_SEP :: '\n' :: ' ' :: ' ' ::
        (joinSep (LIST_SEP :: '\n' :: ' ' :: ' ' :: [])
          (fs.map BibtexField.to_bibtex) ++ ['\n'])).drop (name.length + 1)
      = '\n' :: ' ' :: ' ' ::
        (joinSep (LIST_SEP :: '\n' :: ' ' :: ' ' :: [])
          (fs.map BibtexField.to_bibtex) ++ ['\n']) := by
    have h1 : (name ++ LIST_SEP :: '\n' :: ' ' :: ' ' ::
          (joinSep (LIST_SEP :: '\n' :: ' ' :: ' ' :: [])
            (fs.map BibtexField.to_bibtex) ++ ['\n'])).drop 0
        = (name ++ [LIST_SEP]) ++ '\n' :: ' ' :: ' ' ::
            (joinSep (LIST_SEP :: '\n' :: ' ' :: ' ' :: [])
              (fs.map BibtexField.to_bibtex) ++ ['\n']) := by
      rw [List.drop_zero]
      simp [List.append_assoc]
    have h2 := drop_shift h1
    have h3 : 0 + (name ++ [LIST_SEP]).length = name.length + 1 := by
      simp only [List.length_append, List.length_cons, List.length_nil]
      omega
    rw [h3] at h2
    exact h2
  cases fs with
  | nil =>
    have hb1' : (name ++ LIST_SEP :: '\n' :: ' ' :: ' ' ::
          (joinSep (LIST_SEP :: '\n' :: ' ' :: ' ' :: [])
            (([] : List BibtexField).map BibtexField.to_bibtex) ++ ['\n'])).drop
          (name.length + 1)
        = ['\n', ' ', ' ', '\n'] ++ ([] : List Char) := by
      rw [hb1]
      rfl
    have hsw : skip_whitespace (name ++ LIST_SEP :: '\n' :: ' ' :: ' ' ::
          (joinSep (LIST_SEP :: '\n' :: ' ' :: ' ' :: [])
            (([] : List BibtexField).map BibtexField.to_bibtex) ++ ['\n']))
          (name.length + 1)
        = name.length + 5 := by
      have := skip_ws_eq hb1' (by decide) trivial
      rw [show name.length + 1 + (['\n', ' ', ' ', '\n'] : List Char).length
        = name.length + 5 from by simp] at this
      exact this
    have hend : (name ++ LIST_SEP :: '\n' :: ' ' :: ' ' ::
          (joinSep (LIST_SEP :: '\n' :: ' ' :: ' ' :: [])
            (([] : List BibtexField).map BibtexField.to_bibtex) ++ ['\n'])).drop
          (name.length + 5)
        = [] := by
      have h2 := drop_shift hb1'
      rw [show name.length + 1 + (['\n', ' ', ' ', '\n'] : List Char).length
        = name.length + 5 from by simp] at h2
      exact h2
    simp only [hsw]
    have hlen : (name ++ LIST_SEP :: '\n' :: ' ' :: ' ' ::
          (joinSep (LIST_SEP :: '\n' :: ' ' :: ' ' :: [])
            (([] : List BibtexField).map BibtexField.to_bibtex) ++ ['\n'])).length
        = name.length + 5 := by
      simp [joinSep]
    rw [hlen, fields_loop_nil _ (name.length + 5) _ [] hend, except_bind_ok, hname]
  | cons f fs' =>
    have hrest : joinSep (LIST_SEP :: '\n' :: ' ' :: ' ' :: [])
          ((f :: fs').map BibtexField.to_bibtex) ++ ['\n']
        = fieldsText (f :: fs') := fieldsText_eq f fs'
    have hb1' : (name ++ LIST_SEP :: '\n' :: ' ' :: ' ' ::
          (joinSep (LIST_SEP :: '\n' :: ' ' :: ' ' :: [])
            ((f :: fs').map BibtexField.to_bibtex) ++ ['\n'])).drop
          (name.length + 1)
        = ['\n', ' ', ' '] ++ fieldsText (f :: fs') := by
      rw [hb1, hrest]
      rfl
    have hsw : skip_whitespace (name ++ LIST_SEP :: '\n' :: ' ' :: ' ' ::
          (joinSep (LIST_SEP :: '\n' :: ' ' :: ' ' :: [])
            ((f :: fs').map BibtexField.to_bibtex) ++ ['\n']))
          (name.length + 1)
        = name.length + 4 := by
      have := skip_ws_eq hb1' (by decide)
        (fieldsText_headNotWs (hfs f (by simp)) fs')
      rw [show name.length + 1 + (['\n', ' ', ' '] : List Char).length
        = name.length + 4 from by simp] at this
      exact this
    have hdropF : (name ++ LIST_SEP :: '\n' :: ' ' :: ' ' ::
          (joinSep (LIST_SEP :: '\n' :: ' ' :: ' ' :: [])
            ((f :: fs').map BibtexField.to_bibtex) ++ ['\n'])).drop
          (name.length + 4)
        = fieldsText (f :: fs') := by
      have h2 := drop_shift hb1'
      rw [show name.length + 1 + (['\n', ' ', ' '] : List Char).length
        = name.length + 4 from by simp] at h2
      exact h2
    simp only [hsw]
    rw [fields_round _ (f :: fs') hfs (name.length + 4) [] _ hdropF (by omega),
      except_bind_ok, hname]
    rfl

/-- Reparsing a serialized document: the entry loop reads back the entries
it came from, with each type tag lowercased. -/
theorem doc_round (source : List Char) : ∀ (es : List BibtexEntry),
    (∀ e ∈ es, wf_entry e) → ∀ (i : Nat) (acc : List BibtexEntry) (fuel : Nat),
    source.drop i = entriesText es → source.length - i < fuel →
    doc_loop source fuel i acc = .ok (acc ++ es.map lowerEntry) := by
  intro es
  induction es with
  | nil =>
    intro _ i acc fuel hdrop hfuel
    cases fuel with
    | zero => omega
    | succ fuel =>
      rw [doc_loop_nil source fuel i acc hdrop]
      simp
  | cons e es ih =>
    intro hwf i acc fuel hdrop hfuel
    obtain ⟨httype, htchars, hnstrip, hnchars, hflds⟩ := hwf e (by simp)
    cases fuel with
    | zero => omega
    | succ fuel =>
    obtain ⟨T, hT, hTcase⟩ := entriesText_cons_shape e es
    have hdrop' : source.drop i
        = '@' :: (lowerStr e.type ++ (BLOCK_START :: (entryInterior e ++ (BLOCK_END :: T)))) := by
      rw [hdrop, hT]
    rw [doc_loop_cons source fuel i acc hdrop', if_pos rfl]
    have hd1 : source.drop (i + 1)
        = lowerStr e.type ++ (BLOCK_START :: (entryInterior e ++ (BLOCK_END :: T))) := by
      have h2 := drop_shift (X := ['@'])
        (Y := lowerStr e.type ++ (BLOCK_START :: (entryInterior e ++ (BLOCK_END :: T))))
        (by rw [hdrop']; rfl)
      rw [show i + (['@'] : List Char).length = i + 1 from by simp] at h2
      exact h2
    have hscan : scan_to BLOCK_START (source.drop (i + 1)) (i + 1)
        = .ok (lowerStr e.type, i + 1 + (lowerStr e.type).length) := by
      rw [hd1]
      exact scan_to_run _ _ _ (not_start_mem_lower htchars)
    simp only [hscan, except_bind_ok]
    have hd2 : source.drop (i + 1 + (lowerStr e.type).length)
        = BLOCK_START :: (entryInterior e ++ BLOCK_END :: T) := drop_shift hd1
    have hval := rnv_block hd2 (interior_balanced (hwf e (by simp)))
    simp only [hval, except_bind_ok]
    have hstrip : pyStrip (lowerStr e.type) = lowerStr e.type := by
      rw [pyStrip_lowerStr, httype]
    have hinit : BibtexEntry.init (pyStrip (lowerStr e.type)) (entryInterior e)
        = .ok (lowerEntry e) := by
      rw [hstrip]
      exact entry_round (lowerStr e.type) e.name e.fields hnstrip
        (fun c hc => (hnchars c hc).1) hflds
    simp only [hinit, except_bind_ok]
    have hd3 : source.drop (i + 1 + (lowerStr e.type).length + (entryInterior e).length + 2)
        = T := by
      have h1 : source.drop (i + 1 + (lowerStr e.type).length)
          = (BLOCK_START :: (entryInterior e ++ [BLOCK_END])) ++ T := by
        rw [hd2]
        simp [List.append_assoc]
      have h2 := drop_shift h1
      rw [show i + 1 + (lowerStr e.type).length
            + (BLOCK_START :: (entryInterior e ++ [BLOCK_END])).length
          = i + 1 + (lowerStr e.type).length + (entryInterior e).length + 2 from by
        simp only [List.length_cons, List.length_append, List.length_nil]
        omega] at h2
      exact h2
    have hlen : source.length - i = (entriesText (e :: es)).length := drop_len_eq hdrop
    rcases hTcase with ⟨hes, hTeq⟩ | ⟨e2, es2, hes, hTeq⟩
    · subst hes
      subst hTeq
      have hsw2 : skip_whitespace source
            (i + 1 + (lowerStr e.type).length + (entryInterior e).length + 2)
          = i + 1 + (lowerStr e.type).length + (entryInterior e).length + 2 :=
        skip_ws_at hd3
      simp only [hsw2]
      have hlen2 := drop_len_eq hd3
      have hfuel2 : source.length
          - (i + 1 + (lowerStr e.type).length + (entryInterior e).length + 2) < fuel := by
        have hone : 1 ≤ (entriesText [e]).length := by
          rw [hT]
          simp
        simp only [List.length_nil] at hlen2
        omega
      rw [ih (by simp) _ _ fuel hd3 hfuel2]
      simp
    · subst hTeq
      have hd3' : source.drop (i + 1 + (lowerStr e.type).length + (entryInterior e).length + 2)
          = ['\n', '\n'] ++ entriesText es := by
        rw [hd3]
        rfl
      have hsw2 : skip_whitespace source
            (i + 1 + (lowerStr e.type).length + (entryInterior e).length + 2)
          = i + 1 + (lowerStr e.type).length + (entryInterior e).length + 2 + 2 := by
        have := skip_ws_eq hd3' (by decide) (entriesText_headNotWs es)
        rw [show i + 1 + (lowerStr e.type).length + (entryInterior e).length + 2
              + (['\n', '\n'] : List Char).length
            = i + 1 + (lowerStr e.type).length + (entryInterior e).length + 2 + 2 from by
          simp] at this
        exact this
      have hd4 : source.drop
            (i + 1 + (lowerStr e.type).length + (entryInterior e).length + 2 + 2)
          = entriesText es := by
        have h2 := drop_shift hd3'
        rw [show i + 1 + (lowerStr e.type).length + (entryInterior e).length + 2
              + (['\n', '\n'] : List Char).length
            = i + 1 + (lowerStr e.type).length + (entryInterior e).length + 2 + 2 from by
          simp] at h2
        exact h2
      simp only [hsw2]
      have hlen2 := drop_len_eq hd4
      have hlen3 : (entriesText (e :: es)).length
          = (entriesText es).length
            + ((lowerStr e.type).length + (entryInterior e).length + 5) := by
        rw [hT]
        simp only [List.length_cons, List.length_append]
        omega
      have hfuel2 : source.length
          - (i + 1 + (lowerStr e.type).length + (entryInterior e).length + 2 + 2)
            < fuel := by
        omega
      rw [ih (fun g hg => hwf g (by simp [hg])) _ _ fuel hd4 hfuel2]
      simp

theorem joinSep_entriesText : ∀ es : List BibtexEntry,
    joinSep ('\n' :: '\n' :: []) (es.map BibtexEntry.to_bibtex) = entriesText es := by
  intro es
  induction es with
  | nil => rfl
  | cons e es ih =>
    cases es with
    | nil => rfl
    | cons e2 es2 =>
      rw [List.map_cons, List.map_cons, joinSep, ← List.map_cons, ih, entriesText]
      simp [List.append_assoc]

theorem tb_lowerEntry (e : BibtexEntry) : (lowerEntry e).to_bibtex = e.to_bibtex := by
  unfold lowerEntry BibtexEntry.to_bibtex
  simp only [lowerStr_idem]

theorem to_bibtex_lower (es : List BibtexEntry) :
    BibtexDocument.to_bibtex ⟨es.map lowerEntry⟩ = BibtexDocument.to_bibtex ⟨es⟩ := by
  unfold BibtexDocument.to_bibtex
  simp only [List.map_map]
  congr 1
  exact List.map_congr_left (fun e _ => tb_lowerEntry e)

/-- Claim C1, amended: for every document whose entry types are stripped
and brace-free, whose entry names are stripped and free of commas and
braces, whose field keys are stripped and free of `=` and braces, and
whose field values are stripped and brace-balanced (`wf_doc`), serializing,
reparsing and serializing again reproduces the first serialization:
`serialize(parse(serialize(D))) = serialize(D)`.  The counterexample shows
the original unrestricted claim fails exactly when a parsed value carries
unbalanced braces. -/
theorem C1_amended : ∀ d : BibtexDocument, wf_doc d → roundTrip d = .ok d.to_bibtex := by
  intro d hwf
  unfold roundTrip
  have htext : d.to_bibtex = entriesText d.entries := by
    unfold BibtexDocument.to_bibtex
    exact joinSep_entriesText d.entries
  unfold BibtexDocument.init
  cases hes : d.entries with
  | nil =>
    have h0 : d.to_bibtex = [] := by
      rw [htext, hes]
      rfl
    rw [h0]
    rfl
  | cons e es' =>
    have hwf' : ∀ x ∈ e :: es', wf_entry x := by
      rw [← hes]
      exact hwf
    have hdrop0 : d.to_bibtex.drop 0 = entriesText (e :: es') := by
      rw [List.drop_zero, htext, hes]
    have hsw0 : skip_whitespace d.to_bibtex 0 = 0 := by
      obtain ⟨T, hT, _⟩ := entriesText_cons_shape e es'
      have hd : d.to_bibtex.drop 0
          = '@' :: (lowerStr e.type
              ++ (BLOCK_START :: (entryInterior e ++ (BLOCK_END :: T)))) := by
        rw [hdrop0, hT]
      exact skip_ws_stay hd (by decide)
    rw [hsw0,
      doc_round d.to_bibtex (e :: es') hwf' 0 [] (d.to_bibtex.length + 1) hdrop0 (by omega)]
    simp only [Except.map, List.nil_append]
    have hfinal : BibtexDocument.to_bibtex ⟨(e :: es').map lowerEntry⟩ = d.to_bibtex := by
      rw [to_bibtex_lower (e :: es'), ← hes]
    rw [hfinal]

/-- Witness for the amended C1 at a concrete one-entry document. -/
theorem C1_amended_witness :
    wf_doc (⟨[⟨"misc".data, "a".data, [⟨"k".data, "1".data⟩]⟩]⟩ : BibtexDocument) ∧
      roundTrip ⟨[⟨"misc".data, "a".data, [⟨"k".data, "1".data⟩]⟩]⟩
        = .ok (BibtexDocument.to_bibtex
            ⟨[⟨"misc".data, "a".data, [⟨"k".data, "1".data⟩]⟩]⟩) :=
  ⟨by decide, C1_amended _ (by decide)⟩
